import Mathlib

/-!
Shallow embedding of `easier_apis/core.py`: the expiring LRU cache
(`LRUCache`), the middleware pipeline and the dispatcher (`API`).

Modelling conventions:
* `time.time()` is replaced by an explicit logical clock `now : Nat`
  passed to every operation that reads the clock.
* The `OrderedDict` is a list of `(key, value, expiry)` entries ordered
  from least-recently-used (head) to most-recently-used (last element).
  `del d[k]` is `eraseKey`, membership is `containsKey`, `d[k]` is
  `findEntry`, `move_to_end` is erase-then-append, `popitem(last=False)`
  removes the head.
* Python truthiness is modelled explicitly: `if ttl` is false for both
  `None` and `0`; `if expiry` is false for `None` and `0`; `if cached_data`
  is false for `None` and the empty dict; `if path` is false for `None`
  and the empty string.
* A raised exception (`popitem` on an empty `OrderedDict` raises
  `KeyError`) is modelled by an `Option` result, `none` meaning the call
  raises.
* Payloads (`Dict[str, Any]`) are modelled as association lists from
  field name to an opaque value, the value type taken as `Int`.
* The cffi transport (`rust_core_fetch` / `rust_core_send`, together with
  the JSON decode/encode around it) is an external collaborator: it is a
  function parameter of `fetch`/`send`, and each dispatcher operation also
  returns the list of transport calls it made, so that "the transport is
  not invoked" is observable.
-/

/-- One `OrderedDict` entry of the cache: key, stored value, optional
absolute expiry timestamp. -/
abbrev Entry (α : Type) := String × α × Option Nat

/-- `OrderedDict` lookup `self.cache[key]` (first entry with this key). -/
def findEntry {α : Type} : List (Entry α) → String → Option (Entry α)
  | [], _ => none
  | e :: t, k => if e.1 == k then some e else findEntry t k

/-- `key in self.cache`. -/
def containsKey {α : Type} (l : List (Entry α)) (k : String) : Bool :=
  (findEntry l k).isSome

/-- The `(value, expiry)` pair stored under a key, when present. -/
def lookup {α : Type} (l : List (Entry α)) (k : String) : Option (α × Option Nat) :=
  (findEntry l k).map (fun e => e.2)

/-- `del self.cache[key]`: removes the first entry with this key. -/
def eraseKey {α : Type} : List (Entry α) → String → List (Entry α)
  | [], _ => []
  | e :: t, k => if e.1 == k then t else e :: eraseKey t k

/-- `class LRUCache`: an ordered map plus a fixed capacity. The capacity
is an `Int` because Python accepts any integer here, negative included. -/
structure LRUCache (α : Type) where
  cache : List (Entry α)
  capacity : Int
  deriving Repr, DecidableEq

/-- `LRUCache.__init__(self, capacity=100)`: stores the capacity with no
validation and starts from an empty `OrderedDict`. -/
def LRUCache.init {α : Type} (capacity : Int := 100) : LRUCache α :=
  { cache := [], capacity := capacity }

/-- `expiry = time.time() + ttl if ttl else None` from `LRUCache.put`.
Python truthiness: `ttl=None` and `ttl=0` both take the `else` branch. -/
def mkExpiry (ttl : Option Nat) (now : Nat) : Option Nat :=
  match ttl with
  | none => none
  | some t => if t == 0 then none else some (now + t)

/-- `if expiry and time.time() > expiry` from `LRUCache.get`. Python
truthiness: `expiry=None` and `expiry=0` make the conjunction false. -/
def expiryExpired (expiry : Option Nat) (now : Nat) : Bool :=
  match expiry with
  | none => false
  | some e => !(e == 0) && decide (e < now)

/-- `LRUCache.get(self, key)`: miss on absent key; an expired entry is
deleted and reported absent; a hit moves the entry to the
most-recently-used end and returns the stored value. Returns the Python
return value (`None` = `none`) together with the updated cache. -/
def LRUCache.get {α : Type} (c : LRUCache α) (key : String) (now : Nat) :
    Option α × LRUCache α :=
  match findEntry c.cache key with
  | none => (none, c)
  | some entry =>
    if expiryExpired entry.2.2 now then
      (none, { c with cache := eraseKey c.cache key })
    else
      (some entry.2.1, { c with cache := eraseKey c.cache key ++ [entry] })

/-- `LRUCache.put(self, key, value, ttl=None)`: an existing key is
deleted first; otherwise, at capacity, the least-recently-used entry
(the head) is popped — `popitem` on an empty dict raises `KeyError`,
modelled as `none`. The new entry is appended at the
most-recently-used end. -/
def LRUCache.put {α : Type} (c : LRUCache α) (key : String) (value : α)
    (ttl : Option Nat) (now : Nat) : Option (LRUCache α) :=
  if containsKey c.cache key then
    some { c with cache := eraseKey c.cache key ++ [(key, value, mkExpiry ttl now)] }
  else if (c.cache.length : Int) ≥ c.capacity then
    match c.cache with
    | [] => none
    | _ :: rest => some { c with cache := rest ++ [(key, value, mkExpiry ttl now)] }
  else
    some { c with cache := c.cache ++ [(key, value, mkExpiry ttl now)] }

/-- A payload `Dict[str, Any]`: field name to opaque value. -/
abbrev Payload := List (String × Int)

/-- `if cached_data:` in `API.fetch` — false for `None` and for an empty
dict. -/
def dictTruthy : Option Payload → Bool
  | none => false
  | some d => !d.isEmpty

/-- `if path:` in `API.invalidate_cache` — false for `None` and for the
empty string. -/
def strTruthy : Option String → Bool
  | none => false
  | some s => !(s == "")

/-- `class API`: the middleware list and the owned cache. The `base_url`
and the opaque `rust_core` handle live inside the transport collaborator
and are not part of the cache/dispatch state. -/
structure API where
  middleware : List (Payload → Payload)
  cache : LRUCache Payload

/-- `API.__init__(self, base_url, cache_capacity=100)`: empty middleware
list, fresh cache of the given capacity (again unvalidated). -/
def API.init (cache_capacity : Int := 100) : API :=
  { middleware := [], cache := LRUCache.init cache_capacity }

/-- `API.add_middleware`: appends the transform at the end. -/
def API.add_middleware (a : API) (m : Payload → Payload) : API :=
  { a with middleware := a.middleware ++ [m] }

/-- `API._apply_middleware`: folds the payload through the transforms in
list order. -/
def API.apply_middleware : List (Payload → Payload) → Payload → Payload
  | [], data => data
  | m :: rest, data => API.apply_middleware rest (m data)

/-- `API.fetch(self, path, cache_ttl=None)`. `read` is the transport
collaborator (`rust_core_fetch` composed with the JSON decode). Returns
`(returned payload, cache after the call, paths passed to the transport)`;
`none` models a raised exception. -/
def API.fetch (a : API) (read : String → Payload) (path : String)
    (cache_ttl : Option Nat) (now : Nat) :
    Option (Payload × LRUCache Payload × List String) :=
  let cache_key := "GET:" ++ path
  let r := a.cache.get cache_key now
  if dictTruthy r.1 then
    some (r.1.getD [], r.2, [])
  else
    let data := API.apply_middleware a.middleware (read path)
    match cache_ttl with
    | none => some (data, r.2, [path])
    | some t =>
      match r.2.put cache_key data (some t) now with
      | none => none
      | some c2 => some (data, c2, [path])

/-- `API.send(self, path, method, data)`. `write` is the transport
collaborator (`rust_core_send` with the JSON encode/decode). Returns the
response payload together with the list of
`(path, method, transformed body)` write calls made. -/
def API.send (a : API) (write : String → String → Payload → Payload)
    (path : String) (method : String) (data : Payload) :
    Payload × List (String × String × Payload) :=
  let d := API.apply_middleware a.middleware data
  (write path method d, [(path, method, d)])

/-- `API.invalidate_cache(self, path=None)`: a truthy path deletes only
its `"GET:" + path` entry when present; a falsy path (`None` or `""`)
clears the whole cache. -/
def API.invalidate_cache (a : API) (path : Option String) : API :=
  if strTruthy path then
    let cache_key := "GET:" ++ path.getD ""
    if containsKey a.cache.cache cache_key then
      { a with cache := { a.cache with cache := eraseKey a.cache.cache cache_key } }
    else a
  else
    { a with cache := { a.cache with cache := [] } }

/-- A sequence of `put` calls: each operation is `(key, value, ttl, now)`.
Stops with `none` when a `put` raises. -/
def applyPuts {α : Type} (c : LRUCache α) :
    List (String × α × Option Nat × Nat) → Option (LRUCache α)
  | [] => some c
  | (k, v, ttl, now) :: rest =>
    match c.put k v ttl now with
    | none => none
    | some c2 => applyPuts c2 rest

/-! ### Helper lemmas about the ordered-map operations -/

theorem findEntry_key {α : Type} (l : List (Entry α)) (k : String) (entry : Entry α)
    (h : findEntry l k = some entry) : entry.1 = k := by
  induction l with
  | nil => simp [findEntry] at h
  | cons e t ih =>
    by_cases he : e.1 = k
    · simp [findEntry, beq_iff_eq.mpr he] at h
      rw [← h, he]
    · simp [findEntry, beq_eq_false_iff_ne.mpr he] at h
      exact ih h

theorem findEntry_of_lookup {α : Type} (l : List (Entry α)) (k : String) (v : α)
    (e : Option Nat) (h : lookup l k = some (v, e)) : findEntry l k = some (k, v, e) := by
  unfold lookup at h
  cases hf : findEntry l k with
  | none => rw [hf] at h; simp at h
  | some entry =>
    rw [hf] at h
    simp only [Option.map_some'] at h
    have hk := findEntry_key l k entry hf
    obtain ⟨e1, e2, e3⟩ := entry
    simp only at hk h
    cases h
    rw [hk]

theorem findEntry_append {α : Type} (l1 l2 : List (Entry α)) (k : String) :
    findEntry (l1 ++ l2) k = (findEntry l1 k).or (findEntry l2 k) := by
  induction l1 with
  | nil => rfl
  | cons e t ih =>
    by_cases he : e.1 = k
    · simp [findEntry, beq_iff_eq.mpr he]
    · simp [findEntry, beq_eq_false_iff_ne.mpr he, ih]

theorem findEntry_eraseKey_ne {α : Type} (l : List (Entry α)) (k k2 : String)
    (h : k2 ≠ k) : findEntry (eraseKey l k) k2 = findEntry l k2 := by
  induction l with
  | nil => rfl
  | cons e t ih =>
    by_cases he : e.1 = k
    · have h2 : (e.1 == k2) = false := by
        refine beq_eq_false_iff_ne.mpr ?_
        rw [he]
        exact fun hh => h hh.symm
      simp [eraseKey, findEntry, beq_iff_eq.mpr he, h2]
    · by_cases he2 : e.1 = k2
      · simp [eraseKey, findEntry, beq_eq_false_iff_ne.mpr he, beq_iff_eq.mpr he2]
      · simp [eraseKey, findEntry, beq_eq_false_iff_ne.mpr he,
          beq_eq_false_iff_ne.mpr he2, ih]

theorem findEntry_eq_none {α : Type} (l : List (Entry α)) (k : String)
    (h : k ∉ l.map (fun e => e.1)) : findEntry l k = none := by
  induction l with
  | nil => rfl
  | cons e t ih =>
    simp only [List.map_cons, List.mem_cons] at h
    push_neg at h
    have h1 : (e.1 == k) = false := beq_eq_false_iff_ne.mpr (fun hh => h.1 hh.symm)
    simp [findEntry, h1, ih h.2]

theorem findEntry_eraseKey_self {α : Type} (l : List (Entry α)) (k : String)
    (hwf : (l.map (fun e => e.1)).Nodup) : findEntry (eraseKey l k) k = none := by
  induction l with
  | nil => rfl
  | cons e t ih =>
    simp only [List.map_cons, List.nodup_cons] at hwf
    by_cases he : e.1 = k
    · have : k ∉ t.map (fun e2 => e2.1) := by rw [← he]; exact hwf.1
      simp [eraseKey, beq_iff_eq.mpr he, findEntry_eq_none t k this]
    · simp [eraseKey, findEntry, beq_eq_false_iff_ne.mpr he, ih hwf.2]

theorem eraseKey_length {α : Type} (l : List (Entry α)) (k : String)
    (h : containsKey l k = true) : (eraseKey l k).length + 1 = l.length := by
  induction l with
  | nil => simp [containsKey, findEntry] at h
  | cons e t ih =>
    by_cases he : e.1 = k
    · simp [eraseKey, beq_iff_eq.mpr he]
    · have h1 : (e.1 == k) = false := beq_eq_false_iff_ne.mpr he
      have ht : containsKey t k = true := by
        simpa [containsKey, findEntry, h1] using h
      have := ih ht
      simp only [eraseKey, h1, Bool.false_eq_true, if_false, List.length_cons]
      omega

theorem eraseKey_not_contains {α : Type} (l : List (Entry α)) (k : String)
    (h : containsKey l k = false) : eraseKey l k = l := by
  induction l with
  | nil => rfl
  | cons e t ih =>
    by_cases he : e.1 = k
    · simp [containsKey, findEntry, beq_iff_eq.mpr he] at h
    · have h1 : (e.1 == k) = false := beq_eq_false_iff_ne.mpr he
      have ht : containsKey t k = false := by
        simpa [containsKey, findEntry, h1] using h
      simp [eraseKey, h1, ih ht]

theorem lookup_eraseKey_append_ne {α : Type} (l : List (Entry α)) (k k2 : String)
    (entry : Entry α) (hk : entry.1 = k) (h2 : k2 ≠ k) :
    lookup (eraseKey l k ++ [entry]) k2 = lookup l k2 := by
  have hsingle : findEntry [entry] k2 = none := by
    have : (entry.1 == k2) = false := by
      refine beq_eq_false_iff_ne.mpr ?_
      rw [hk]
      exact fun hh => h2 hh.symm
    simp [findEntry, this]
  simp [lookup, findEntry_append, hsingle, findEntry_eraseKey_ne l k k2 h2]

/-! ### Branch lemmas for `put` and `get` -/

theorem put_mem {α : Type} (c : LRUCache α) (k : String) (v : α) (ttl : Option Nat)
    (now : Nat) (h : containsKey c.cache k = true) :
    c.put k v ttl now
      = some { c with cache := eraseKey c.cache k ++ [(k, v, mkExpiry ttl now)] } := by
  simp [LRUCache.put, h]

theorem put_new_full {α : Type} (c : LRUCache α) (k : String) (v : α) (ttl : Option Nat)
    (now : Nat) (e : Entry α) (rest : List (Entry α))
    (hmem : containsKey c.cache k = false)
    (hfull : (c.cache.length : Int) ≥ c.capacity)
    (hc : c.cache = e :: rest) :
    c.put k v ttl now = some { c with cache := rest ++ [(k, v, mkExpiry ttl now)] } := by
  obtain ⟨l, cap⟩ := c
  simp only at hmem hfull hc
  subst hc
  simp [LRUCache.put, hmem, hfull]
  simp only [List.length_cons] at hfull
  push_cast at hfull ⊢
  omega

theorem put_new_spare {α : Type} (c : LRUCache α) (k : String) (v : α) (ttl : Option Nat)
    (now : Nat) (hmem : containsKey c.cache k = false)
    (hlt : ¬ ((c.cache.length : Int) ≥ c.capacity)) :
    c.put k v ttl now = some { c with cache := c.cache ++ [(k, v, mkExpiry ttl now)] } := by
  simp [LRUCache.put, hmem, hlt]

theorem get_hit {α : Type} (c : LRUCache α) (k : String) (now : Nat) (v : α)
    (e : Option Nat) (hl : lookup c.cache k = some (v, e))
    (hexp : expiryExpired e now = false) :
    c.get k now = (some v, { c with cache := eraseKey c.cache k ++ [(k, v, e)] }) := by
  have hf := findEntry_of_lookup c.cache k v e hl
  simp [LRUCache.get, hf, hexp]

theorem put_getLast {α : Type} (c c2 : LRUCache α) (k : String) (v : α)
    (ttl : Option Nat) (now : Nat) (hput : c.put k v ttl now = some c2) :
    c2.cache.getLast? = some (k, v, mkExpiry ttl now) := by
  unfold LRUCache.put at hput
  split at hput
  · cases hput
    simp [List.getLast?_concat]
  · split at hput
    · split at hput
      · cases hput
      · cases hput
        simp [List.getLast?_concat]
    · cases hput
      simp [List.getLast?_concat]

/-! ### Capacity preservation -/

theorem put_le_capacity {α : Type} (c : LRUCache α) (k : String) (v : α)
    (ttl : Option Nat) (now : Nat) (hcap : 1 ≤ c.capacity)
    (hlen : (c.cache.length : Int) ≤ c.capacity) :
    ∃ c2, c.put k v ttl now = some c2 ∧ c2.capacity = c.capacity ∧
      (c2.cache.length : Int) ≤ c.capacity := by
  by_cases hmem : containsKey c.cache k = true
  · refine ⟨_, put_mem c k v ttl now hmem, rfl, ?_⟩
    have h1 := eraseKey_length c.cache k hmem
    simp only [List.length_append, List.length_cons, List.length_nil]
    omega
  · have hmem2 : containsKey c.cache k = false := by
      simpa using hmem
    by_cases hfull : (c.cache.length : Int) ≥ c.capacity
    · obtain ⟨e, rest, hc⟩ : ∃ e rest, c.cache = e :: rest := by
        cases hcc : c.cache with
        | nil =>
          exfalso
          rw [hcc] at hfull
          simp at hfull
          omega
        | cons e rest => exact ⟨e, rest, rfl⟩
      refine ⟨_, put_new_full c k v ttl now e rest hmem2 hfull hc, rfl, ?_⟩
      simp only [List.length_append, List.length_cons, List.length_nil]
      rw [hc] at hlen
      simp only [List.length_cons] at hlen
      push_cast at hlen ⊢
      omega
    · refine ⟨_, put_new_spare c k v ttl now hmem2 hfull, rfl, ?_⟩
      simp only [List.length_append, List.length_cons, List.length_nil]
      push_cast
      push_cast at hfull
      omega

theorem applyPuts_le_capacity {α : Type}
    (ops : List (String × α × Option Nat × Nat)) :
    ∀ (c : LRUCache α), 1 ≤ c.capacity → (c.cache.length : Int) ≤ c.capacity →
    ∃ c2, applyPuts c ops = some c2 ∧ c2.capacity = c.capacity ∧
      (c2.cache.length : Int) ≤ c.capacity := by
  induction ops with
  | nil => exact fun c _ h2 => ⟨c, rfl, rfl, h2⟩
  | cons op rest ih =>
    intro c h1 h2
    obtain ⟨k, v, ttl, now⟩ := op
    obtain ⟨c2, hput, hcap2, hlen2⟩ := put_le_capacity c k v ttl now h1 h2
    obtain ⟨c3, happ, hcap3, hlen3⟩ := ih c2 (by rw [hcap2]; exact h1) (by rw [hcap2]; exact hlen2)
    refine ⟨c3, ?_, by rw [hcap3, hcap2], by rw [← hcap2]; exact hlen3⟩
    simp [applyPuts, hput, happ]

/-! ### Claim theorems -/

/-- Claim C1 (refuted by the code): `put(k, v, ttl=0)` does NOT create an
immediately-expiring entry. Because `expiry = time.time() + ttl if ttl
else None` treats `ttl=0` as falsy, the entry is stored with no expiry —
exactly the state produced by `ttl=None` — and `get(k)` returns the value
at every strictly later time instead of absent. -/
theorem ttl_zero_entry_never_expires :
    LRUCache.put (LRUCache.init 1 (α := Nat)) "k" 5 (some 0) 10
      = some ⟨[("k", 5, none)], 1⟩
    ∧ (∀ t : Nat, ((⟨[("k", 5, none)], 1⟩ : LRUCache Nat).get "k" t).1 = some 5)
    ∧ LRUCache.put (LRUCache.init 1 (α := Nat)) "k" 5 none 10
      = some ⟨[("k", 5, none)], 1⟩ := by
  refine ⟨by decide, fun t => ?_, by decide⟩
  rfl

/-- Claim C4 counterexample: `LRUCache` construction performs no
validation, so capacity 0 is accepted silently — the constructor returns
an ordinary cache whose capacity field is 0 (neither rejected nor
clamped), and the first `put` then raises (`popitem` on an empty dict)
at operation time, not construction time. -/
theorem init_capacity_zero_accepted :
    (LRUCache.init 0 : LRUCache Nat) = ⟨[], 0⟩
    ∧ LRUCache.put (LRUCache.init 0 : LRUCache Nat) "k" 1 none 0 = none := by
  exact ⟨rfl, by decide⟩

/-- Claim C4 amended: a capacity below 1 is not detected at construction:
the cache is built normally with the capacity stored unchanged, and the
configuration error surfaces only later — every `put` into such a cache
raises (`KeyError` from popping an empty `OrderedDict`). -/
theorem init_no_capacity_validation (cap : Int) (hcap : cap < 1) :
    (LRUCache.init cap : LRUCache Nat) = ⟨[], cap⟩
    ∧ ∀ (k : String) (v : Nat) (ttl : Option Nat) (now : Nat),
        LRUCache.put (LRUCache.init cap : LRUCache Nat) k v ttl now = none := by
  refine ⟨rfl, fun k v ttl now => ?_⟩
  have h1 : containsKey ([] : List (Entry Nat)) k = false := rfl
  have h2 : ((([] : List (Entry Nat)).length : Int) ≥ cap) := by
    simp
    omega
  simp [LRUCache.put, LRUCache.init, h1, h2]
  omega

/-- Witness for `init_no_capacity_validation` at capacity 0. -/
theorem init_no_capacity_validation_witness :
    ((0 : Int) < 1)
    ∧ (LRUCache.init 0 : LRUCache Nat) = ⟨[], 0⟩
    ∧ LRUCache.put (LRUCache.init 0 : LRUCache Nat) "a" 3 (some 7) 2 = none := by
  refine ⟨by decide, (init_no_capacity_validation 0 (by decide)).1, ?_⟩
  exact (init_no_capacity_validation 0 (by decide)).2 "a" 3 (some 7) 2

/-- Claim C7 counterexample: `send` performs no method validation: with
the unsupported method string "NOT-A-METHOD" the transport write
operation is still invoked (the call trace is non-empty) and no error of
any kind is reported. -/
theorem send_invalid_method_counterexample :
    API.send ⟨[], ⟨[], 10⟩⟩ (fun _ _ _ => [("ok", 1)]) "/x" "NOT-A-METHOD" [("d", 2)]
      = ([("ok", 1)], [("/x", "NOT-A-METHOD", [("d", 2)])]) := rfl

/-- Claim C7 amended: `send` never validates the method: for every method
string, supported or not, exactly one transport write call is made,
carrying that method string and the middleware-transformed payload; no
configuration error is ever reported before or instead of the transport
call. -/
theorem send_no_method_validation (a : API)
    (write : String → String → Payload → Payload)
    (path method : String) (data : Payload) :
    API.send a write path method data
      = (write path method (API.apply_middleware a.middleware data),
         [(path, method, API.apply_middleware a.middleware data)]) := rfl

/-- Claim C9: middleware transforms are applied in insertion order —
adding `T1` then `T2` and applying to `x` yields `T2 (T1 x)`; in general
`add_middleware` appends at the end and `_apply_middleware` folds the
payload left-to-right, the output of each transform feeding the next. -/
theorem pipeline_insertion_order (T1 T2 m : Payload → Payload) (x : Payload)
    (a : API) (ms : List (Payload → Payload)) :
    API.apply_middleware
        (((API.init 100).add_middleware T1).add_middleware T2).middleware x
      = T2 (T1 x)
    ∧ (a.add_middleware m).middleware = a.middleware ++ [m]
    ∧ API.apply_middleware (m :: ms) x = API.apply_middleware ms (m x)
    ∧ API.apply_middleware (ms ++ [m]) x = m (API.apply_middleware ms x) := by
  refine ⟨rfl, rfl, rfl, ?_⟩
  induction ms generalizing x with
  | nil => rfl
  | cons m0 t ih => exact ih (m0 x)

/-- Claim C5: with capacity 2, `put(a,1); put(b,2); get(a); put(c,3)`
evicts exactly `b`, leaving the cache holding `a` then `c`; in general a
`get` hit and a successful `put` both leave the affected key as the last
(most-recently-used) element of the order. -/
theorem lru_eviction_order :
    ((LRUCache.put (LRUCache.init 2 (α := Nat)) "a" 1 none 0).bind (fun c =>
      (LRUCache.put c "b" 2 none 0).bind (fun c =>
        LRUCache.put (c.get "a" 0).2 "c" 3 none 0)))
      = some ⟨[("a", 1, none), ("c", 3, none)], 2⟩
    ∧ (∀ {α : Type} (c : LRUCache α) (k : String) (now : Nat) (v : α)
        (e : Option Nat), lookup c.cache k = some (v, e) →
        expiryExpired e now = false →
        (c.get k now).2.cache.getLast? = some (k, v, e))
    ∧ (∀ {α : Type} (c c2 : LRUCache α) (k : String) (v : α) (ttl : Option Nat)
        (now : Nat), c.put k v ttl now = some c2 →
        c2.cache.getLast? = some (k, v, mkExpiry ttl now)) := by
  refine ⟨by decide, fun c k now v e hl hexp => ?_, fun c c2 k v ttl now hput => ?_⟩
  · rw [get_hit c k now v e hl hexp]
    simp [List.getLast?_concat]
  · exact put_getLast c c2 k v ttl now hput

/-- Witness for `lru_eviction_order`: a concrete hit makes the key the
most-recently-used element. -/
theorem lru_eviction_order_witness :
    lookup ([("k", (5 : Nat), none)] : List (Entry Nat)) "k" = some (5, none)
    ∧ expiryExpired none 3 = false
    ∧ ((⟨[("k", 5, none)], 1⟩ : LRUCache Nat).get "k" 3).2.cache.getLast?
        = some ("k", 5, none) := by
  exact ⟨rfl, rfl, lru_eviction_order.2.1 ⟨[("k", 5, none)], 1⟩ "k" 3 5 none rfl rfl⟩

/-- Claim C2 counterexample: an EMPTY payload stored unexpired under
"GET:/a" is not returned from the cache: `if cached_data:` is false for
an empty dict, so `fetch` treats the entry as a miss, invokes the
transport (call trace `["/a"]`) and returns the freshly transformed
transport payload instead of the stored value. -/
theorem fetch_cached_empty_counterexample :
    lookup ([("GET:/a", ([] : Payload), none)] : List (Entry Payload)) "GET:/a"
      = some ([], none)
    ∧ API.fetch ⟨[], ⟨[("GET:/a", [], none)], 10⟩⟩ (fun _ => [("x", 7)]) "/a" none 0
      = some ([("x", 7)], ⟨[("GET:/a", [], none)], 10⟩, ["/a"]) := by
  exact ⟨rfl, rfl⟩

/-- Claim C2 amended: for every NON-EMPTY payload stored unexpired under
`"GET:" + path`, `fetch(path)` returns exactly the stored value: the
transport read is never invoked (empty call trace) and the middleware
pipeline is not reapplied (the payload is returned exactly as stored;
the only state change is the entry moving to the most-recently-used
end). An empty stored payload is instead treated as a miss. -/
theorem fetch_cached_hit (a : API) (read : String → Payload) (path : String)
    (cache_ttl : Option Nat) (now : Nat) (p : Payload) (e : Option Nat)
    (hl : lookup a.cache.cache ("GET:" ++ path) = some (p, e))
    (hne : p ≠ [])
    (hexp : expiryExpired e now = false) :
    API.fetch a read path cache_ttl now
      = some (p,
          { a.cache with
              cache := eraseKey a.cache.cache ("GET:" ++ path)
                ++ [("GET:" ++ path, p, e)] },
          []) := by
  have hget := get_hit a.cache ("GET:" ++ path) now p e hl hexp
  have hpt : dictTruthy (some p) = true := by
    cases p with
    | nil => exact absurd rfl hne
    | cons x xs => rfl
  simp [API.fetch, hget, hpt]

/-- Witness for `fetch_cached_hit` on a concrete one-entry cache. -/
theorem fetch_cached_hit_witness :
    lookup ([("GET:/u", [("n", 1)], none)] : List (Entry Payload)) "GET:/u"
      = some ([("n", 1)], none)
    ∧ ([("n", (1 : Int))] : Payload) ≠ []
    ∧ expiryExpired none 5 = false
    ∧ API.fetch ⟨[], ⟨[("GET:/u", [("n", 1)], none)], 4⟩⟩ (fun _ => []) "/u" none 5
      = some ([("n", 1)], ⟨[("GET:/u", [("n", 1)], none)], 4⟩, []) := by
  refine ⟨rfl, by simp, rfl, ?_⟩
  have h := fetch_cached_hit ⟨[], ⟨[("GET:/u", [("n", 1)], none)], 4⟩⟩ (fun _ => [])
    "/u" none 5 [("n", 1)] none rfl (by simp) rfl
  exact h.trans (by decide)

/-- Claim C3: starting from an empty cache of capacity `cap ≥ 1`, every
sequence of `put` calls (any keys, values, ttls, times) succeeds and
leaves at most `cap` entries; moreover a `put` of a fresh key into a full
cache evicts exactly the least-recently-used (head) entry, while a `put`
of an existing key evicts nothing (it only replaces that key's entry,
keeping every other entry). -/
theorem capacity_invariant (cap : Int) (hcap : 1 ≤ cap)
    (ops : List (String × Nat × Option Nat × Nat)) :
    (∃ c2, applyPuts (LRUCache.init cap) ops = some c2
      ∧ (c2.cache.length : Int) ≤ cap)
    ∧ (∀ (c : LRUCache Nat) (k : String) (v : Nat) (ttl : Option Nat) (now : Nat)
        (e : Entry Nat) (rest : List (Entry Nat)),
        containsKey c.cache k = false → (c.cache.length : Int) ≥ c.capacity →
        c.cache = e :: rest →
        c.put k v ttl now = some { c with cache := rest ++ [(k, v, mkExpiry ttl now)] })
    ∧ (∀ (c : LRUCache Nat) (k : String) (v : Nat) (ttl : Option Nat) (now : Nat),
        containsKey c.cache k = true →
        c.put k v ttl now
          = some { c with cache := eraseKey c.cache k ++ [(k, v, mkExpiry ttl now)] }) := by
  refine ⟨?_, put_new_full, put_mem⟩
  obtain ⟨c2, h1, _, h3⟩ := applyPuts_le_capacity ops (LRUCache.init cap) hcap (by simp [LRUCache.init]; omega)
  exact ⟨c2, h1, h3⟩

/-- Witness for `capacity_invariant`: three distinct puts into a
capacity-2 cache stay within the bound. -/
theorem capacity_invariant_witness :
    (1 ≤ (2 : Int))
    ∧ (∃ c2, applyPuts (LRUCache.init 2)
        [("a", (1 : Nat), none, 0), ("b", 2, none, 0), ("c", 3, none, 0)] = some c2
      ∧ (c2.cache.length : Int) ≤ 2) := by
  exact ⟨by decide, (capacity_invariant 2 (by decide)
    [("a", 1, none, 0), ("b", 2, none, 0), ("c", 3, none, 0)]).1⟩

/-- Claim C6 counterexample: `invalidate_cache` with the EMPTY path
string does not remove only the `"GET:"` entry — because `if path:` is
false for `""`, it clears the entire cache, deleting the unrelated
`"GET:/b"` entry as well. -/
theorem invalidate_empty_path_counterexample :
    API.invalidate_cache ⟨[], ⟨[("GET:/b", [("w", 1)], none)], 10⟩⟩ (some "")
      = ⟨[], ⟨[], 10⟩⟩ := rfl

/-- Claim C6 amended: for every NON-EMPTY path, `invalidate_cache`
removes exactly the `"GET:" + path` entry: the middleware and capacity
are untouched, every other key keeps its value and expiry, and an absent
key makes the call a no-op; a `None` path — and likewise the empty
string, which `if path:` treats the same way — clears every entry. -/
theorem invalidate_scoping (a : API) (p : String) (hp : p ≠ "") :
    ((API.invalidate_cache a (some p)).middleware = a.middleware
      ∧ (API.invalidate_cache a (some p)).cache.capacity = a.cache.capacity)
    ∧ (API.invalidate_cache a (some p)).cache.cache
        = eraseKey a.cache.cache ("GET:" ++ p)
    ∧ (∀ k, k ≠ "GET:" ++ p →
        lookup (API.invalidate_cache a (some p)).cache.cache k
          = lookup a.cache.cache k)
    ∧ (containsKey a.cache.cache ("GET:" ++ p) = false →
        API.invalidate_cache a (some p) = a)
    ∧ (API.invalidate_cache a none).cache.cache = []
    ∧ (API.invalidate_cache a (some "")).cache.cache = [] := by
  have hst : strTruthy (some p) = true := by
    simp [strTruthy]
    exact hp
  have hres : (API.invalidate_cache a (some p)).middleware = a.middleware
      ∧ (API.invalidate_cache a (some p)).cache.capacity = a.cache.capacity
      ∧ (API.invalidate_cache a (some p)).cache.cache
          = eraseKey a.cache.cache ("GET:" ++ p) := by
    by_cases hc : containsKey a.cache.cache ("GET:" ++ p) = true
    · simp [API.invalidate_cache, hst, hc]
    · have hc2 : containsKey a.cache.cache ("GET:" ++ p) = false := by
        simpa using hc
      simp [API.invalidate_cache, hst, hc2, eraseKey_not_contains _ _ hc2]
  refine ⟨⟨hres.1, hres.2.1⟩, hres.2.2, fun k hk => ?_, fun hc2 => ?_, ?_, ?_⟩
  · rw [hres.2.2]
    simp [lookup, findEntry_eraseKey_ne a.cache.cache ("GET:" ++ p) k hk]
  · simp [API.invalidate_cache, hst, hc2]
  · simp [API.invalidate_cache, strTruthy]
  · simp [API.invalidate_cache, strTruthy]

/-- Witness for `invalidate_scoping` on a two-entry cache. -/
theorem invalidate_scoping_witness :
    ("/a" ≠ "")
    ∧ (API.invalidate_cache
        ⟨[], ⟨[("GET:/a", [("v", 1)], none), ("GET:/b", [("w", 2)], none)], 10⟩⟩
        (some "/a")).cache.cache
      = eraseKey [("GET:/a", [("v", 1)], none), ("GET:/b", [("w", 2)], none)]
          "GET:/a" := by
  refine ⟨by decide, ?_⟩
  exact (invalidate_scoping
    ⟨[], ⟨[("GET:/a", [("v", 1)], none), ("GET:/b", [("w", 2)], none)], 10⟩⟩
    "/a" (by decide)).2.1

/-- Claim C8: a `put` of an already-present key into a cache at capacity
evicts nothing: the cache size is unchanged, every other key keeps its
value and expiry, and the updated key holds the new value (with the new
expiry) at the most-recently-used end. -/
theorem put_existing_no_eviction {α : Type} (c : LRUCache α) (k : String) (v : α)
    (ttl : Option Nat) (now : Nat)
    (hwf : (c.cache.map (fun en => en.1)).Nodup)
    (hmem : containsKey c.cache k = true)
    (hfull : (c.cache.length : Int) = c.capacity) :
    ∃ c2, c.put k v ttl now = some c2
      ∧ c2.cache = eraseKey c.cache k ++ [(k, v, mkExpiry ttl now)]
      ∧ c2.cache.length = c.cache.length
      ∧ (∀ k2, k2 ≠ k → lookup c2.cache k2 = lookup c.cache k2)
      ∧ lookup c2.cache k = some (v, mkExpiry ttl now) := by
  refine ⟨_, put_mem c k v ttl now hmem, rfl, ?_, ?_, ?_⟩
  · have h1 := eraseKey_length c.cache k hmem
    simp only [List.length_append, List.length_cons, List.length_nil]
    omega
  · intro k2 hk2
    exact lookup_eraseKey_append_ne c.cache k k2 (k, v, mkExpiry ttl now) rfl hk2
  · have h1 := findEntry_eraseKey_self c.cache k hwf
    simp [lookup, findEntry_append, h1, findEntry]

/-- Witness for `put_existing_no_eviction` on a full capacity-2 cache. -/
theorem put_existing_no_eviction_witness :
    ((([("a", (1 : Nat), none), ("b", 2, none)] : List (Entry Nat)).map
        (fun en => en.1)).Nodup)
    ∧ containsKey ([("a", (1 : Nat), none), ("b", 2, none)] : List (Entry Nat)) "a"
        = true
    ∧ ((([("a", (1 : Nat), none), ("b", 2, none)] : List (Entry Nat)).length : Int)
        = 2)
    ∧ (∃ c2, (⟨[("a", 1, none), ("b", 2, none)], 2⟩ : LRUCache Nat).put "a" 9 none 0
          = some c2
        ∧ lookup c2.cache "b" = lookup [("a", 1, none), ("b", 2, none)] "b"
        ∧ lookup c2.cache "a" = some (9, mkExpiry none 0)) := by
  refine ⟨by decide, by decide, by decide, ?_⟩
  obtain ⟨c2, h1, _, _, h4, h5⟩ :=
    put_existing_no_eviction (⟨[("a", 1, none), ("b", 2, none)], 2⟩ : LRUCache Nat)
      "a" 9 none 0 (by decide) (by decide) (by decide)
  exact ⟨c2, h1, h4 "b" (by decide), h5⟩

/-- Claim C10: a cache hit does not extend the entry's lifetime: `get`
on an unexpired entry moves it to the most-recently-used end but the
stored `(value, expiry)` pair of every key — the hit key included — is
exactly what it was before the call; only `put` writes an expiry. -/
theorem get_hit_preserves_expiry {α : Type} (c : LRUCache α) (k : String)
    (now : Nat) (v : α) (e : Option Nat)
    (hwf : (c.cache.map (fun en => en.1)).Nodup)
    (hl : lookup c.cache k = some (v, e))
    (hexp : expiryExpired e now = false) :
    c.get k now = (some v, { c with cache := eraseKey c.cache k ++ [(k, v, e)] })
    ∧ (eraseKey c.cache k ++ [(k, v, e)]).getLast? = some (k, v, e)
    ∧ (∀ k2, lookup (eraseKey c.cache k ++ [(k, v, e)]) k2 = lookup c.cache k2) := by
  refine ⟨get_hit c k now v e hl hexp, by simp [List.getLast?_concat], fun k2 => ?_⟩
  by_cases hk2 : k2 = k
  · subst hk2
    have h1 := findEntry_eraseKey_self c.cache k2 hwf
    rw [hl]
    simp [lookup, findEntry_append, h1, findEntry]
  · exact lookup_eraseKey_append_ne c.cache k k2 (k, v, e) rfl hk2

/-- Witness for `get_hit_preserves_expiry`: a hit at time 50 on an entry
expiring at 100 leaves the expiry at 100. -/
theorem get_hit_preserves_expiry_witness :
    (([("k", (7 : Nat), some 100)] : List (Entry Nat)).map (fun en => en.1)).Nodup
    ∧ lookup ([("k", (7 : Nat), some 100)] : List (Entry Nat)) "k"
        = some (7, some 100)
    ∧ expiryExpired (some 100) 50 = false
    ∧ (⟨[("k", 7, some 100)], 1⟩ : LRUCache Nat).get "k" 50
        = (some 7, ⟨[("k", 7, some 100)], 1⟩) := by
  refine ⟨by decide, rfl, by decide, ?_⟩
  have h := (get_hit_preserves_expiry (⟨[("k", 7, some 100)], 1⟩ : LRUCache Nat)
    "k" 50 7 (some 100) (by decide) rfl (by decide)).1
  exact h.trans (by decide)
